import Mathlib

/-!
Verification of the breadth-first documentation crawler in
`app/services/ai/tools/url_extraction.py` (python-backend).

The Python module is shallowly embedded: pure helpers become Lean
functions; the network (page fetching, HEAD/GET probes) and the HTML/DOM
layer (BeautifulSoup) are modelled as oracle parameters, since they are
external to the module; the BFS loop is modelled with explicit state and
a fuel parameter (the Python loop terminates only on finite link graphs).
An `enqueuedLog` history field records every element ever placed on the
queue, so that statements about enqueue events can be made; it has no
effect on the rest of the computation.

String manipulation is done on `List Char` with structural recursion so
that every definition evaluates by kernel reduction.
-/

/-! ## Character-list string helpers (Python `str` operations). -/

def splitFirstChar (sep : Char) : List Char → Option (List Char × List Char)
  | [] => none
  | c :: cs =>
    if c == sep then some ([], cs)
    else (splitFirstChar sep cs).map (fun p => (c :: p.1, p.2))

def splitOnChar (sep : Char) : List Char → List (List Char)
  | [] => [[]]
  | c :: cs =>
    if c == sep then [] :: splitOnChar sep cs
    else
      match splitOnChar sep cs with
      | [] => [[c]]
      | p :: ps => (c :: p) :: ps

def intercalateChar (sep : Char) : List (List Char) → List Char
  | [] => []
  | [x] => x
  | x :: xs => x ++ sep :: intercalateChar sep xs

/-- Python `pat in s` (substring test). -/
def containsSub (pat : List Char) : List Char → Bool
  | [] => pat.isEmpty
  | c :: cs => pat.isPrefixOf (c :: cs) || containsSub pat cs

def strContains (s pat : String) : Bool := containsSub pat.data s.data

/-- Python `s.strip()`. -/
def pyStrip (s : String) : String :=
  String.mk (((s.data.dropWhile Char.isWhitespace).reverse.dropWhile Char.isWhitespace).reverse)

/-- Python `s.lower()` (ASCII model). -/
def pyLower (s : String) : String := String.mk (s.data.map Char.toLower)

/-- Python `s.endswith(pat)`. -/
def pyEndsWith (s pat : String) : Bool := pat.data.isSuffixOf s.data

/-- Python `s.replace(old, new)` for one-character `old`/`new`. -/
def pyReplaceChar (s : String) (old new : Char) : String :=
  String.mk (s.data.map (fun c => if c == old then new else c))

/-- Python `s.title()` (ASCII model): the first character of every
alphabetic run is uppercased, the rest lowercased. -/
def pyTitleAux : List Char → Bool → List Char
  | [], _ => []
  | c :: cs, prevAlpha =>
    (if prevAlpha then c.toLower else c.toUpper) :: pyTitleAux cs c.isAlpha

def pyTitle (s : String) : String := String.mk (pyTitleAux s.data false)

/-- Lexicographic comparison of character lists by code point, the order
Python uses to compare `str` values with `<=`. -/
def charListLe : List Char → List Char → Bool
  | [], _ => true
  | _ :: _, [] => false
  | a :: as, b :: bs => if a < b then true else if b < a then false else charListLe as bs

/-! ## URL parsing: model of `urllib.parse.urlparse` restricted to the
fields the module reads (scheme, netloc, path, fragment).  CPython
raises `ValueError` on a netloc with mismatched square brackets; this is
modelled by returning `none`. -/

structure ParsedUrl where
  scheme : String
  netloc : String
  path : String
  fragment : String
deriving DecidableEq, Repr

def isValidScheme : List Char → Bool
  | [] => false
  | c :: cs =>
    c.isAlpha && (c :: cs).all (fun ch => ch.isAlphanum || ch == '+' || ch == '-' || ch == '.')

def urlparse (url : String) : Option ParsedUrl :=
  let cs := url.data
  let fr : List Char × List Char :=
    match splitFirstChar '#' cs with
    | some p => p
    | none => (cs, [])
  let sc : List Char × List Char :=
    match splitFirstChar ':' fr.1 with
    | some p => if isValidScheme p.1 then (p.1.map Char.toLower, p.2) else ([], fr.1)
    | none => ([], fr.1)
  let nl : List Char × List Char :=
    match sc.2 with
    | '/' :: '/' :: after => after.span (fun c => !(c == '/' || c == '?'))
    | _ => ([], sc.2)
  if (nl.1.contains '[') != (nl.1.contains ']') then none
  else
    some ⟨String.mk sc.1, String.mk nl.1,
          String.mk ((nl.2.span (fun c => !(c == '?'))).1), String.mk fr.2⟩

/-! ## Link filter: embedding of `_is_relevant_link`. -/

def excludedPaths : List String :=
  ["/login", "/logout", "/signup", "/register", "/sign-in", "/sign-out",
   "/_next/", "/static/", "/assets/", "/images/", "/css/", "/js/"]

def excludedExtensions : List String :=
  [".pdf", ".jpg", ".jpeg", ".png", ".gif", ".svg", ".ico",
   ".zip", ".tar", ".gz", ".exe", ".dmg", ".css", ".js",
   ".woff", ".woff2", ".ttf", ".eot"]

/-- Python `'.'.join(parts[-2:])`. -/
def lastTwoLabels (parts : List (List Char)) : List Char :=
  intercalateChar '.' (parts.drop (parts.length - 2))

def isRelevantLink (link_url main_url : String) : Bool :=
  match urlparse link_url, urlparse main_url with
  | some parsed_link, some parsed_main =>
    let schemeOk := parsed_link.scheme == "http" || parsed_link.scheme == "https"
    let link_domain_parts := splitOnChar '.' parsed_link.netloc.data
    let main_domain_parts := splitOnChar '.' parsed_main.netloc.data
    let domainOk :=
      if 2 ≤ link_domain_parts.length ∧ 2 ≤ main_domain_parts.length then
        lastTwoLabels link_domain_parts == lastTwoLabels main_domain_parts
      else
        parsed_link.netloc == parsed_main.netloc
    let fragReject := parsed_link.path == parsed_main.path && parsed_link.fragment != ""
    let path_lower := pyLower parsed_link.path
    let pathReject := excludedPaths.any (fun e => strContains path_lower e)
    let extReject := excludedExtensions.any (fun e => pyEndsWith path_lower e)
    schemeOk && domainOk && !fragReject && !pathReject && !extReject
  | _, _ => false

/-! ## URL existence check: embedding of `_check_url_exists`.
The network is an oracle: the outcome of the HEAD request and of the
(possible) GET request are the inputs. -/

inductive NetResp where
  | status : Nat → NetResp
  | timeout : NetResp
  | requestError : NetResp
deriving DecidableEq, Repr

def checkUrlExists (headResp getResp : NetResp) : Bool × Option Nat × Option String :=
  match headResp with
  | .timeout => (false, none, some "timeout")
  | .requestError => (false, none, some "request_error")
  | .status status_code =>
    if status_code < 400 then (true, some status_code, none)
    else if status_code = 405 ∨ status_code = 403 then
      match getResp with
      | .timeout => (false, none, some "timeout")
      | .requestError => (false, none, some "request_error")
      | .status g =>
        if g < 400 then (true, some g, none)
        else (false, some g, some "validation_failed")
    else (false, some status_code, some "validation_failed")

/-- Classification written from the specification text alone, to be
compared with `checkUrlExists`: the final response is the HEAD response,
except that a HEAD answer of 403 or 405 is replaced by the GET response;
a timeout gives reason timeout and no status, any other transport error
gives request_error and no status, a final status below 400 is verified,
and any other final status gives validation_failed with that status. -/
def checkUrlExistsSpec (headResp getResp : NetResp) : Bool × Option Nat × Option String :=
  let finalResp :=
    match headResp with
    | .status s => if s = 403 ∨ s = 405 then getResp else headResp
    | _ => headResp
  match finalResp with
  | .timeout => (false, none, some "timeout")
  | .requestError => (false, none, some "request_error")
  | .status s =>
    if s < 400 then (true, some s, none)
    else (false, some s, some "validation_failed")

/-! ## Global validation cache: embedding of the `OrderedDict`-based LRU
(`_get_cached_validation` / `_set_cached_validation`).  The ordered
dictionary is a list of key-value pairs, oldest first; `move_to_end`
moves an entry to the back; `popitem(last=False)` removes the front. -/

structure ValidationRecord where
  status : String
  status_code : Option Nat
  reason : Option String
deriving DecidableEq, Repr

abbrev LruCache := List (String × ValidationRecord)

def MAX_GLOBAL_CACHE_SIZE : Nat := 1000

def getCachedValidation (url : String) (cache : LruCache) :
    Option ValidationRecord × LruCache :=
  match cache.lookup url with
  | some r => (some r, cache.filter (fun p => p.1 != url) ++ [(url, r)])
  | none => (none, cache)

def setCachedValidation (url : String) (record : ValidationRecord)
    (cache : LruCache) : LruCache :=
  let c1 := cache.filter (fun p => p.1 != url) ++ [(url, record)]
  if MAX_GLOBAL_CACHE_SIZE < c1.length then c1.tail else c1

/-! ## URL validation: embedding of `_validate_url_status`.
The network existence check is an oracle taking the url and the timeout
actually passed to it (so that the timeout handed to the network layer
is observable); its result triple has the shape returned by
`_check_url_exists`.  The per-request cache is a dictionary threaded
through the crawl; the global LRU cache is threaded as well.  The
concurrency semaphore and the random jitter delay only schedule the
network call and are not modelled. -/

abbrev NetCheck := String → Nat → Bool × Option Nat × Option String

abbrev PerCache := List (String × ValidationRecord)

def mkValidationRecord (t : Bool × Option Nat × Option String) : ValidationRecord :=
  ⟨if t.1 then "verified" else "failed", t.2.1, t.2.2⟩

def validateUrlStatus (net : NetCheck) (url : String) (timeoutSec : Nat)
    (per_request_cache : PerCache) (globalCache : LruCache) :
    ValidationRecord × PerCache × LruCache :=
  match per_request_cache.lookup url with
  | some r => (r, per_request_cache, globalCache)
  | none =>
    match getCachedValidation url globalCache with
    | (some cached, g) => (cached, per_request_cache ++ [(url, cached)], g)
    | (none, g) =>
      let record := mkValidationRecord (net url (min timeoutSec 10))
      (record, per_request_cache ++ [(url, record)], setCachedValidation url record g)

/-! ## BFS crawl engine: embedding of `_extract_urls_recursively_bfs`.
`_extract_urls_from_html` (fetch + parse + filter + title resolution for
one page) is an oracle returning the `(url, title)` list, or `none` when
it raises; the `continue` in the `except` branch is the `none` case. -/

structure SkippedLink where
  url : String
  reason : String
  statusCode : Option Nat
deriving DecidableEq, Repr

structure URLExtractionMetadata where
  totalChecked : Nat := 0
  verified : Nat := 0
  failed : Nat := 0
  unverified : Nat := 0
  max_depth : Nat := 0
deriving DecidableEq, Repr

abbrev FetchOracle := String → Option (List (String × String))

structure BfsState where
  queue : List (String × Nat)
  visited : List String
  records : List (String × String × Nat)
  skipped : List SkippedLink
  unverified : List SkippedLink
  metadata : URLExtractionMetadata
  per_request_cache : PerCache
  globalCache : LruCache
  processedCount : Nat
  errorCount : Nat
  enqueuedLog : List (String × Nat)
deriving Repr

/-- Python `validation_record.get("reason") or "validation_failed"`
(`or` treats `None` and the empty string as missing). -/
def pyReasonOr (r : Option String) : String :=
  match r with
  | some s => if s = "" then "validation_failed" else s
  | none => "validation_failed"

/-- One iteration of the `for found_url, title in urls_to_process` body. -/
def processOneLink (net : NetCheck) (timeoutSec max_depth : Nat) (strict_mode : Bool)
    (current_depth : Nat) (s : BfsState) (link : String × String) : BfsState :=
  if link.1 ∈ s.visited then s
  else
    let v := validateUrlStatus net link.1 timeoutSec s.per_request_cache s.globalCache
    let s1 := { s with
      per_request_cache := v.2.1, globalCache := v.2.2,
      metadata := { s.metadata with totalChecked := s.metadata.totalChecked + 1 } }
    if v.1.status = "verified" then
      let s2 := { s1 with
        visited := link.1 :: s1.visited,
        metadata := { s1.metadata with
          verified := s1.metadata.verified + 1,
          max_depth := max s1.metadata.max_depth (current_depth + 1) },
        records := s1.records ++ [(link.1, link.2, current_depth + 1)] }
      if current_depth + 1 ≤ max_depth then
        { s2 with
          queue := s2.queue ++ [(link.1, current_depth + 1)],
          enqueuedLog := s2.enqueuedLog ++ [(link.1, current_depth + 1)] }
      else s2
    else
      let sk : SkippedLink := ⟨link.1, pyReasonOr v.1.reason, v.1.status_code⟩
      let s2 := { s1 with
        metadata := { s1.metadata with failed := s1.metadata.failed + 1 },
        skipped := s1.skipped ++ [sk] }
      if strict_mode then s2
      else
        { s2 with
          metadata := { s2.metadata with unverified := s2.metadata.unverified + 1 },
          unverified := s2.unverified ++ [sk] }

def bfsLoop (fetch : FetchOracle) (net : NetCheck)
    (max_depth max_urls_per_level : Nat) (strict_mode : Bool) (timeoutSec : Nat) :
    Nat → BfsState → BfsState
  | 0, s => s
  | fuel + 1, s =>
    match s.queue with
    | [] => s
    | (current_url, current_depth) :: rest =>
      let s1 := { s with queue := rest, processedCount := s.processedCount + 1 }
      if max_depth < current_depth then
        bfsLoop fetch net max_depth max_urls_per_level strict_mode timeoutSec fuel s1
      else
        match fetch current_url with
        | none =>
          bfsLoop fetch net max_depth max_urls_per_level strict_mode timeoutSec fuel
            { s1 with errorCount := s1.errorCount + 1 }
        | some urls_with_titles =>
          let urls_to_process := urls_with_titles.take max_urls_per_level
          bfsLoop fetch net max_depth max_urls_per_level strict_mode timeoutSec fuel
            (urls_to_process.foldl
              (processOneLink net timeoutSec max_depth strict_mode current_depth) s1)

structure URLExtractionContext where
  userId : String := "default"
  mainUrl : String := ""
  timeoutSec : Nat := 60
  max_depth : Nat := 5
  max_urls_per_level : Nat := 200
  strict_mode : Bool := true
deriving Repr

def initBfsState (main_url : String) (globalCache : LruCache) : BfsState :=
  { queue := [(main_url, 0)], visited := [main_url], records := [],
    skipped := [], unverified := [], metadata := {},
    per_request_cache := [], globalCache := globalCache,
    processedCount := 0, errorCount := 0, enqueuedLog := [(main_url, 0)] }

def extractUrlsRecursivelyBfs (fetch : FetchOracle) (net : NetCheck)
    (main_url : String) (context : URLExtractionContext)
    (globalCache : LruCache) (fuel : Nat) : BfsState :=
  bfsLoop fetch net context.max_depth context.max_urls_per_level
    context.strict_mode context.timeoutSec fuel (initBfsState main_url globalCache)

/-! ## Title resolver: embedding of `_extract_title_from_url`.
The DOM of the source page is abstracted by `findById` (result of
`main_soup.find(id=...)`, stripped text) and `headings` (the `(id, text)`
pairs of its h1..h6 elements, in document order); fetching and parsing
the candidate page is abstracted by `fetchPage`, `none` meaning any
network or HTTP failure.  The result is `none` exactly when the Python
function would let an exception escape (urlparse failing on `url` with
empty anchor text). -/

structure PageParse where
  h1 : Option String
  h2 : Option String
  titleTag : Option String

def takeUntilSub (sep : List Char) : List Char → List Char
  | [] => []
  | c :: cs => if sep.isPrefixOf (c :: cs) then [] else c :: takeUntilSub sep cs

def cleanPageTitle (t : String) : String :=
  pyStrip (String.mk (takeUntilSub " | ".data (takeUntilSub " - ".data t.data)))

def pageTitleTagTitle (page : PageParse) : Option String :=
  match page.titleTag with
  | some t => if t ≠ "" then some (cleanPageTitle t) else none
  | none => none

def pageH2Title (page : PageParse) : Option String :=
  match page.h2 with
  | some t => if t ≠ "" then some t else pageTitleTagTitle page
  | none => pageTitleTagTitle page

def pageHeadingTitle (page : PageParse) : Option String :=
  match page.h1 with
  | some t => if t ≠ "" then some t else pageH2Title page
  | none => pageH2Title page

def urlDerivedTitle (parsed : ParsedUrl) : String :=
  let path_parts := (splitOnChar '/' parsed.path.data).filter (fun p => !p.isEmpty)
  match path_parts.getLast? with
  | some last =>
    pyTitle (pyReplaceChar (pyReplaceChar (String.mk last) '-' ' ') '_' ' ')
  | none => "Home"

def extractTitleFromUrl (findById : String → Option String)
    (headings : List (String × String)) (fetchPage : String → Option PageParse)
    (url : String) (anchor_text : String) (main_url : String) : Option String :=
  if anchor_text ≠ "" ∧ anchor_text.length < 100 then some (pyStrip anchor_text)
  else
    match urlparse url, urlparse main_url with
    | some parsed_url, some parsed_main =>
      let fromFragment : Option String :=
        if parsed_url.path = parsed_main.path ∧ parsed_url.fragment ≠ "" then
          match findById parsed_url.fragment with
          | some h => some h
          | none =>
            (headings.find? (fun h =>
              containsSub (pyLower parsed_url.fragment).data (pyLower h.1).data)).map Prod.snd
        else none
      match fromFragment with
      | some t => some t
      | none =>
        match (fetchPage url).bind pageHeadingTitle with
        | some t => some t
        | none =>
          if pyStrip anchor_text ≠ "" then some (pyStrip anchor_text)
          else some (urlDerivedTitle parsed_url)
    | some parsed_url, none =>
      if pyStrip anchor_text ≠ "" then some (pyStrip anchor_text)
      else some (urlDerivedTitle parsed_url)
    | none, _ =>
      if pyStrip anchor_text ≠ "" then some (pyStrip anchor_text) else none

/-! ## Topic organizer: embedding of `_organize_urls_to_topics_with_depth`.
`urlparse` is called without any exception handler there, so a parse
failure aborts the whole organizer (`none`), which the top-level
`except` turns into the JSON error shape.  Python's `list.sort` is a
stable comparison sort; it is modelled by a structural stable insertion
sort — after URL deduplication the `(depth, url)` sort keys are pairwise
distinct, so every correct stable sort produces the same list. -/

structure Topic where
  id : String
  title : String
  url : String
  description : Option String
  «section» : Option String
  depth : Nat
deriving DecidableEq, Repr

def topicSortLe (a b : Topic) : Bool :=
  decide (a.depth < b.depth) || (a.depth == b.depth && charListLe a.url.data b.url.data)

def insertLe (le : α → α → Bool) (a : α) : List α → List α
  | [] => [a]
  | b :: bs => if le b a then b :: insertLe le a bs else a :: b :: bs

def insertionSort (le : α → α → Bool) : List α → List α
  | [] => []
  | x :: xs => insertLe le x (insertionSort le xs)

def titleFromLastPart (path_parts : List (List Char)) : String :=
  match path_parts.getLast? with
  | some last_part =>
    pyTitle (pyReplaceChar (pyReplaceChar (String.mk last_part) '-' ' ') '_' ' ')
  | none => "Home"

def topicTitle (extracted_title : String) (path_parts : List (List Char)) : String :=
  if pyStrip extracted_title ≠ "" then pyStrip extracted_title
  else titleFromLastPart path_parts

def sectionFromParts (path_parts : List (List Char)) (url : String) : String :=
  match path_parts with
  | first_part :: _ =>
    pyTitle (pyReplaceChar (pyReplaceChar (String.mk first_part) '-' ' ') '_' ' ')
  | [] =>
    let u := pyLower url
    if strContains u "ref/" || strContains u "reference/" then "API Reference"
    else if strContains u "examples/" then "Examples"
    else if strContains u "guide/" || strContains u "tutorial/" || strContains u "guides/" then
      "Guides"
    else if strContains u "quickstart" || strContains u "getting_started" then
      "Getting Started"
    else if strContains u "overview" then "Overview"
    else "Documentation"

def topicId (path_parts : List (List Char)) : String :=
  let tid := if path_parts.isEmpty then "home".data else intercalateChar '-' path_parts
  String.mk ((tid.map (fun c => if c == '/' then '-' else c)).map Char.toLower)

def mkTopicFor (url extracted_title : String) (depth : Nat) (parsed : ParsedUrl) : Topic :=
  let path_parts := (splitOnChar '/' parsed.path.data).filter (fun p => !p.isEmpty)
  let title := topicTitle extracted_title path_parts
  { id := topicId path_parts, title := title, url := url,
    description := some ("[Level " ++ toString depth ++ "] Documentation page: " ++ title),
    «section» := some (sectionFromParts path_parts url), depth := depth }

def organizeLoop (main_url : String) :
    List (String × String × Nat) → List String → Option (List Topic)
  | [], _ => some []
  | (url, extracted_title, depth) :: rest, seen_urls =>
    if url ∈ seen_urls then organizeLoop main_url rest seen_urls
    else
      match urlparse url with
      | none => none
      | some parsed =>
        let path_parts := (splitOnChar '/' parsed.path.data).filter (fun p => !p.isEmpty)
        if path_parts.isEmpty ∧ url = main_url then
          organizeLoop main_url rest (url :: seen_urls)
        else
          (organizeLoop main_url rest (url :: seen_urls)).map
            (fun ts => mkTopicFor url extracted_title depth parsed :: ts)

structure OrganizePayload where
  topics : List Topic
  skippedLinks : List SkippedLink
  unverifiedLinks : List SkippedLink
  metadata : URLExtractionMetadata
deriving DecidableEq, Repr

def organizeUrlsToTopicsWithDepth (urls_with_depth : List (String × String × Nat))
    (main_url : String) (strict_mode : Bool) (skipped unverified : List SkippedLink)
    (metadata : URLExtractionMetadata) : Option OrganizePayload :=
  match organizeLoop main_url urls_with_depth [] with
  | none => none
  | some topics =>
    some { topics := insertionSort topicSortLe topics,
           skippedLinks := skipped,
           unverifiedLinks := if strict_mode then [] else unverified,
           metadata := metadata }

/-! ## Top-level tool: embedding of `extract_urls_from_documentation`
restricted to the HTTP extraction path (the browser backend is
unavailable, so both `browser` and `auto` modes fall back to HTTP, with
`spaDetected = False` and `extractionMode = "http"`).  The surrounding
`try/except` returns a JSON error object when an exception escapes the
pipeline; in the HTTP path the only such exception source is the
organizer's unguarded `urlparse` call.  The per-page fetch failures
inside the BFS are caught there and never reach this handler. -/

structure URLExtractionResult where
  topics : List Topic
  skippedLinks : List SkippedLink
  unverifiedLinks : List SkippedLink
  mainUrl : String
  totalPages : Nat
  maxDepth : Nat
  metadata : URLExtractionMetadata
  extractionMode : String
  spaDetected : Bool
deriving Repr

inductive ExtractOutput where
  | ok : URLExtractionResult → ExtractOutput
  | errorResult : String → ExtractOutput
deriving Repr

def extractUrlsFromDocumentation (fetch : FetchOracle) (net : NetCheck)
    (url : String) (context : URLExtractionContext) (globalCache : LruCache)
    (fuel : Nat) : ExtractOutput :=
  let payload := extractUrlsRecursivelyBfs fetch net url context globalCache fuel
  match organizeUrlsToTopicsWithDepth payload.records url context.strict_mode
      payload.skipped payload.unverified payload.metadata with
  | some tp =>
    .ok { topics := tp.topics, skippedLinks := tp.skippedLinks,
          unverifiedLinks := tp.unverifiedLinks, mainUrl := url,
          totalPages := tp.topics.length, maxDepth := tp.metadata.max_depth,
          metadata := tp.metadata, extractionMode := "http", spaDetected := false }
  | none => .errorResult "Invalid IPv6 URL"

/-! The JSON error shape produced by the `except` handler is
`{"error": str(e), "topics": [], "skippedLinks": [], "unverifiedLinks": [],
"mainUrl": url, "totalPages": 0, "maxDepth": 0, "metadata": defaults}`.
The projections below read a field uniformly from either shape. -/

def outHasErrorField : ExtractOutput → Bool
  | .ok _ => false
  | .errorResult _ => true

def outTopics : ExtractOutput → List Topic
  | .ok r => r.topics
  | .errorResult _ => []

def outTotalPages : ExtractOutput → Nat
  | .ok r => r.totalPages
  | .errorResult _ => 0

def outSkippedLinks : ExtractOutput → List SkippedLink
  | .ok r => r.skippedLinks
  | .errorResult _ => []

def outUnverifiedLinks : ExtractOutput → List SkippedLink
  | .ok r => r.unverifiedLinks
  | .errorResult _ => []

def outMetadata : ExtractOutput → URLExtractionMetadata
  | .ok r => r.metadata
  | .errorResult _ => {}

/-! ## Concrete oracles for witnesses and counterexamples. -/

/-- Three-page site: the root links to `/a`, `/a` links to `/a/b`,
`/a/b` links to nothing. -/
def fetchChain : FetchOracle := fun u =>
  if u = "https://d.ex" then some [("https://d.ex/a", "A")]
  else if u = "https://d.ex/a" then some [("https://d.ex/a/b", "B")]
  else some []

def netAll200 : NetCheck := fun _ _ => (true, some 200, none)

def fetchFailAll : FetchOracle := fun _ => none

def ctxDepth1 : URLExtractionContext := { mainUrl := "https://d.ex", max_depth := 1 }

def ctxDepth1Lax : URLExtractionContext :=
  { mainUrl := "https://d.ex", max_depth := 1, strict_mode := false }

/-- Key family with pairwise distinct URLs, for exercising the LRU bound. -/
def lruKey (n : Nat) : String := String.mk (List.replicate n 'a')

def lruEntries : List (String × ValidationRecord) :=
  (List.range (MAX_GLOBAL_CACHE_SIZE + 1)).map
    (fun n => (lruKey n, ⟨"verified", some 200, none⟩))

def recsW : List (String × String × Nat) :=
  [("https://d.ex/b", "T1", 2), ("https://d.ex/a", "T2", 1), ("https://d.ex/b", "T3", 2)]

def organizePayloadW : OrganizePayload :=
  { topics :=
      [{ id := "a", title := "T2", url := "https://d.ex/a",
         description := some "[Level 1] Documentation page: T2",
         «section» := some "A", depth := 1 },
       { id := "b", title := "T1", url := "https://d.ex/b",
         description := some "[Level 2] Documentation page: T1",
         «section» := some "B", depth := 2 }],
    skippedLinks := [], unverifiedLinks := [], metadata := {} }

def findByIdNone : String → Option String := fun _ => none

def fetchPageNone : String → Option PageParse := fun _ => none

/-- Network check oracle that reports back the timeout it was given. -/
def netEcho : NetCheck := fun _ t => (true, some t, none)

/-! ## Helper lemmas. -/

theorem insertLe_perm (le : α → α → Bool) (a : α) :
    ∀ l : List α, (insertLe le a l).Perm (a :: l) := by
  intro l
  induction l with
  | nil => exact List.Perm.refl _
  | cons b bs ih =>
    unfold insertLe
    split
    · exact (ih.cons b).trans (List.Perm.swap a b bs)
    · exact List.Perm.refl _

theorem insertionSort_perm (le : α → α → Bool) :
    ∀ l : List α, (insertionSort le l).Perm l := by
  intro l
  induction l with
  | nil => exact List.Perm.refl _
  | cons x xs ih => exact (insertLe_perm le x (insertionSort le xs)).trans (ih.cons x)

theorem pairwise_insertLe (le : α → α → Bool)
    (htrans : ∀ a b c, le a b = true → le b c = true → le a c = true)
    (htot : ∀ a b, le a b = true ∨ le b a = true) (a : α) :
    ∀ l : List α, l.Pairwise (fun x y => le x y = true) →
      (insertLe le a l).Pairwise (fun x y => le x y = true) := by
  intro l
  induction l with
  | nil => intro _; simp [insertLe]
  | cons b bs ih =>
    intro hp
    rw [List.pairwise_cons] at hp
    unfold insertLe
    split
    case isTrue hba =>
      rw [List.pairwise_cons]
      refine ⟨fun y hy => ?_, ih hp.2⟩
      have hmem : y ∈ a :: bs := (insertLe_perm le a bs).mem_iff.mp hy
      rcases List.mem_cons.mp hmem with rfl | hybs
      · exact hba
      · exact hp.1 y hybs
    case isFalse hba =>
      have hab : le a b = true := by
        rcases htot a b with h | h
        · exact h
        · exact absurd h hba
      rw [List.pairwise_cons]
      refine ⟨fun y hy => ?_, List.pairwise_cons.mpr hp⟩
      rcases List.mem_cons.mp hy with rfl | hybs
      · exact hab
      · exact htrans a b y hab (hp.1 y hybs)

theorem pairwise_insertionSort (le : α → α → Bool)
    (htrans : ∀ a b c, le a b = true → le b c = true → le a c = true)
    (htot : ∀ a b, le a b = true ∨ le b a = true) :
    ∀ l : List α, (insertionSort le l).Pairwise (fun x y => le x y = true) := by
  intro l
  induction l with
  | nil => simp [insertionSort]
  | cons x xs ih => exact pairwise_insertLe le htrans htot x _ ih

theorem charListLe_total : ∀ as bs : List Char,
    charListLe as bs = true ∨ charListLe bs as = true := by
  intro as
  induction as with
  | nil => intro bs; left; simp [charListLe]
  | cons a as ih =>
    intro bs
    cases bs with
    | nil => right; simp [charListLe]
    | cons b bs =>
      simp only [charListLe]
      rcases lt_trichotomy a b with h | h | h
      · left; simp [h]
      · subst h
        simp only [lt_irrefl, if_false]
        exact ih bs
      · right; simp [h]

theorem charListLe_cases {a b : Char} {as bs : List Char}
    (h : charListLe (a :: as) (b :: bs) = true) :
    a < b ∨ (a = b ∧ charListLe as bs = true) := by
  simp only [charListLe] at h
  by_cases hab : a < b
  · exact Or.inl hab
  · by_cases hba : b < a
    · rw [if_neg hab, if_pos hba] at h
      exact absurd h (by simp)
    · have heq : a = b := le_antisymm (not_lt.mp hba) (not_lt.mp hab)
      rw [if_neg hab, if_neg hba] at h
      exact Or.inr ⟨heq, h⟩

theorem charListLe_trans : ∀ as bs cs : List Char,
    charListLe as bs = true → charListLe bs cs = true → charListLe as cs = true := by
  intro as
  induction as with
  | nil => intro bs cs _ _; simp [charListLe]
  | cons a as ih =>
    intro bs cs h1 h2
    cases bs with
    | nil => simp [charListLe] at h1
    | cons b bs =>
      cases cs with
      | nil => simp [charListLe] at h2
      | cons c cs =>
        rcases charListLe_cases h1 with hab | ⟨rfl, h1'⟩ <;>
          rcases charListLe_cases h2 with hbc | ⟨hbc, h2'⟩
        · have : a < c := lt_trans hab hbc
          simp [charListLe, this]
        · subst hbc
          simp [charListLe, hab]
        · simp [charListLe, hbc]
        · subst hbc
          simp only [charListLe, lt_irrefl, if_false]
          exact ih bs cs h1' h2'

theorem topicSortLe_total : ∀ a b : Topic, topicSortLe a b = true ∨ topicSortLe b a = true := by
  intro a b
  unfold topicSortLe
  rcases Nat.lt_trichotomy a.depth b.depth with h | h | h
  · left; simp [h]
  · rcases charListLe_total a.url.data b.url.data with hc | hc
    · left; simp [h, hc]
    · right; simp [h, hc]
  · right; simp [h]

theorem topicSortLe_trans : ∀ a b c : Topic,
    topicSortLe a b = true → topicSortLe b c = true → topicSortLe a c = true := by
  intro a b c h1 h2
  unfold topicSortLe at h1 h2 ⊢
  simp only [Bool.or_eq_true, Bool.and_eq_true, decide_eq_true_eq, beq_iff_eq] at h1 h2 ⊢
  rcases h1 with h1 | ⟨h1e, h1u⟩ <;> rcases h2 with h2 | ⟨h2e, h2u⟩
  · exact Or.inl (lt_trans h1 h2)
  · exact Or.inl (h2e ▸ h1)
  · exact Or.inl (h1e ▸ h2)
  · exact Or.inr ⟨h1e.trans h2e, charListLe_trans _ _ _ h1u h2u⟩

theorem filter_ne_of_fresh_key : ∀ (c : LruCache) (k : String),
    k ∉ c.map Prod.fst → c.filter (fun p => p.1 != k) = c := by
  intro c k h
  induction c with
  | nil => rfl
  | cons p ps ih =>
    simp only [List.map_cons, List.mem_cons, not_or] at h
    have hp : (p.1 != k) = true := by
      simp only [bne_iff_ne, ne_eq]
      exact fun he => h.1 he.symm
    simp [List.filter_cons, hp, ih h.2]

theorem lru_setCached_fresh (c : LruCache) (k : String) (v : ValidationRecord)
    (h : k ∉ c.map Prod.fst) :
    setCachedValidation k v c =
      (if MAX_GLOBAL_CACHE_SIZE < (c ++ [(k, v)]).length then (c ++ [(k, v)]).tail
       else c ++ [(k, v)]) := by
  unfold setCachedValidation
  rw [filter_ne_of_fresh_key c k h]

theorem lru_fold_keys :
    ∀ entries : List (String × ValidationRecord),
      (entries.map Prod.fst).Nodup →
      ((entries.foldl (fun c kv => setCachedValidation kv.1 kv.2 c) []).map Prod.fst)
        = (entries.map Prod.fst).drop (entries.length - MAX_GLOBAL_CACHE_SIZE) := by
  intro entries
  induction entries using List.reverseRecOn with
  | nil => intro _; simp
  | append_singleton es e ih =>
    intro hnd
    have hsplit : (es.map Prod.fst).Nodup ∧ e.1 ∉ es.map Prod.fst := by
      rw [List.map_append, List.nodup_append] at hnd
      refine ⟨hnd.1, fun hm => ?_⟩
      exact hnd.2.2 hm (by simp)
    have hkeys := ih hsplit.1
    set c := es.foldl (fun c kv => setCachedValidation kv.1 kv.2 c) [] with hc
    rw [List.foldl_append]
    have hfresh : e.1 ∉ c.map Prod.fst := by
      intro hm
      rw [hkeys] at hm
      exact hsplit.2 (List.drop_subset _ _ hm)
    have hlen : c.length = es.length - (es.length - MAX_GLOBAL_CACHE_SIZE) := by
      have h1 := congrArg List.length hkeys
      simpa [List.length_map, List.length_drop] using h1
    rw [List.foldl_cons, List.foldl_nil, lru_setCached_fresh c e.1 e.2 hfresh]
    have hMpos : 0 < MAX_GLOBAL_CACHE_SIZE := by simp [MAX_GLOBAL_CACHE_SIZE]
    by_cases hbig : MAX_GLOBAL_CACHE_SIZE ≤ es.length
    · have hclen : c.length = MAX_GLOBAL_CACHE_SIZE := by omega
      have hcond : MAX_GLOBAL_CACHE_SIZE < (c ++ [(e.1, e.2)]).length := by
        simp [List.length_append, hclen]
      rw [if_pos hcond]
      obtain ⟨p, ps, hcps⟩ : ∃ p ps, c = p :: ps := by
        cases hc2 : c with
        | nil => rw [hc2] at hclen; simp at hclen; omega
        | cons p ps => exact ⟨p, ps, rfl⟩
      have htail : (c ++ [(e.1, e.2)]).tail = c.tail ++ [(e.1, e.2)] := by
        rw [hcps]; simp
      rw [htail, List.map_append, List.map_tail, hkeys, List.tail_drop]
      simp only [List.map_append, List.length_append, List.map_cons, List.map_nil,
        List.length_cons, List.length_nil]
      rw [List.drop_append_of_le_length (by simp only [List.length_map]; omega)]
      have hidx : es.length - MAX_GLOBAL_CACHE_SIZE + 1
          = es.length + (0 + 1) - MAX_GLOBAL_CACHE_SIZE := by omega
      rw [hidx]
    · have hcond : ¬ MAX_GLOBAL_CACHE_SIZE < (c ++ [(e.1, e.2)]).length := by
        simp only [List.length_append, List.length_cons, List.length_nil]
        omega
      rw [if_neg hcond, List.map_append, hkeys]
      simp only [List.map_append, List.length_append, List.map_cons, List.map_nil,
        List.length_cons, List.length_nil]
      have h0 : es.length - MAX_GLOBAL_CACHE_SIZE = 0 := by omega
      have h0a : es.length + (0 + 1) - MAX_GLOBAL_CACHE_SIZE = 0 := by omega
      rw [h0, h0a]
      simp

theorem mkTopicFor_url (url extracted_title : String) (depth : Nat) (parsed : ParsedUrl) :
    (mkTopicFor url extracted_title depth parsed).url = url := rfl

theorem organizeLoop_urls (main_url : String) :
    ∀ (rs : List (String × String × Nat)) (seen : List String) (ts : List Topic),
      organizeLoop main_url rs seen = some ts →
      (ts.map Topic.url).Nodup ∧ ∀ t ∈ ts, t.url ∉ seen := by
  intro rs
  induction rs with
  | nil =>
    intro seen ts h
    simp only [organizeLoop, Option.some.injEq] at h
    subst h
    simp
  | cons r rest ih =>
    intro seen ts h
    obtain ⟨url, extracted_title, depth⟩ := r
    simp only [organizeLoop] at h
    split at h
    · have hres := ih seen ts h
      exact ⟨hres.1, hres.2⟩
    · rename_i hnot
      split at h
      · exact absurd h (by simp)
      · rename_i parsed hp
        split at h
        · have hres := ih (url :: seen) ts h
          refine ⟨hres.1, fun t ht hmem => ?_⟩
          exact hres.2 t ht (List.mem_cons_of_mem _ hmem)
        · cases hrec : organizeLoop main_url rest (url :: seen) with
          | none => rw [hrec] at h; exact absurd h (by simp)
          | some ts' =>
            rw [hrec] at h
            simp only [Option.map_some', Option.some.injEq] at h
            subst h
            obtain ⟨hnd, hmem⟩ := ih _ _ hrec
            constructor
            · simp only [List.map_cons, mkTopicFor_url, List.nodup_cons]
              refine ⟨fun hin => ?_, hnd⟩
              obtain ⟨t, ht, hturl⟩ := List.mem_map.mp hin
              exact hmem t ht (hturl ▸ List.mem_cons_self url seen)
            · intro t ht
              rcases List.mem_cons.mp ht with rfl | ht'
              · rw [mkTopicFor_url]; exact hnot
              · intro hs
                exact hmem t ht' (List.mem_cons_of_mem _ hs)

theorem organize_fields (rs : List (String × String × Nat)) (main_url : String)
    (strict_mode : Bool) (skipped unverified : List SkippedLink)
    (metadata : URLExtractionMetadata) (payload : OrganizePayload)
    (h : organizeUrlsToTopicsWithDepth rs main_url strict_mode skipped unverified metadata
        = some payload) :
    payload.skippedLinks = skipped ∧
    payload.unverifiedLinks = (if strict_mode then [] else unverified) ∧
    payload.metadata = metadata ∧
    ∃ ts, organizeLoop main_url rs [] = some ts ∧
      payload.topics = insertionSort topicSortLe ts := by
  unfold organizeUrlsToTopicsWithDepth at h
  cases hl : organizeLoop main_url rs [] with
  | none => rw [hl] at h; exact absurd h (by simp)
  | some ts =>
    rw [hl] at h
    simp only [Option.some.injEq] at h
    subst h
    exact ⟨rfl, rfl, rfl, ts, rfl, rfl⟩

theorem getCachedValidation_miss (url : String) (c : LruCache)
    (h : c.lookup url = none) : getCachedValidation url c = (none, c) := by
  simp [getCachedValidation, h]

theorem bfsLoop_queue_nil (fetch : FetchOracle) (net : NetCheck)
    (max_depth max_urls_per_level : Nat) (strict_mode : Bool) (timeoutSec : Nat) :
    ∀ (fuel : Nat) (s : BfsState), s.queue = [] →
      bfsLoop fetch net max_depth max_urls_per_level strict_mode timeoutSec fuel s = s := by
  intro fuel s h
  cases fuel with
  | zero => rfl
  | succ n => simp [bfsLoop, h]

/-! ## BFS invariants. -/

def InvNodup (s : BfsState) : Prop :=
  (s.enqueuedLog.map Prod.fst).Nodup ∧
  (∀ u ∈ s.enqueuedLog.map Prod.fst, u ∈ s.visited) ∧
  (s.records.map (fun r => r.1)).Nodup ∧
  (∀ u ∈ s.records.map (fun r => r.1), u ∈ s.visited)

def InvDepth (max_depth : Nat) (s : BfsState) : Prop :=
  (∀ e ∈ s.enqueuedLog, e.2 ≤ max_depth) ∧
  (∀ r ∈ s.records, r.2.2 ≤ max_depth + 1)

def InvStrict (strict_mode : Bool) (s : BfsState) : Prop :=
  s.unverified = (if strict_mode then [] else s.skipped) ∧
  s.metadata.failed = s.skipped.length

theorem foldl_processOneLink_pres (net : NetCheck) (timeoutSec max_depth : Nat)
    (strict_mode : Bool) (current_depth : Nat) (P : BfsState → Prop)
    (hstep : ∀ s link, P s →
      P (processOneLink net timeoutSec max_depth strict_mode current_depth s link)) :
    ∀ (links : List (String × String)) (s : BfsState), P s →
      P (links.foldl (processOneLink net timeoutSec max_depth strict_mode current_depth) s) := by
  intro links
  induction links with
  | nil => intro s h; exact h
  | cons l ls ih => intro s h; exact ih _ (hstep s l h)

theorem bfsLoop_pres (fetch : FetchOracle) (net : NetCheck)
    (max_depth max_urls_per_level : Nat) (strict_mode : Bool) (timeoutSec : Nat)
    (P : BfsState → Prop)
    (hfields : ∀ (s : BfsState) (q : List (String × Nat)) (n m : Nat), P s →
      P { s with queue := q, processedCount := n, errorCount := m })
    (hstep : ∀ current_depth, current_depth ≤ max_depth → ∀ s link, P s →
      P (processOneLink net timeoutSec max_depth strict_mode current_depth s link)) :
    ∀ (fuel : Nat) (s : BfsState), P s →
      P (bfsLoop fetch net max_depth max_urls_per_level strict_mode timeoutSec fuel s) := by
  intro fuel
  induction fuel with
  | zero => intro s h; exact h
  | succ n ih =>
    intro s h
    cases hq : s.queue with
    | nil => simpa [bfsLoop, hq] using h
    | cons front rest =>
      obtain ⟨current_url, current_depth⟩ := front
      simp only [bfsLoop, hq]
      split
      · exact ih _ (hfields s rest (s.processedCount + 1) s.errorCount h)
      · rename_i hdep
        have hle : current_depth ≤ max_depth := by omega
        split
        · exact ih _ (hfields s rest (s.processedCount + 1) (s.errorCount + 1) h)
        · exact ih _ (foldl_processOneLink_pres net timeoutSec max_depth strict_mode
            current_depth P (hstep current_depth hle) _ _
            (hfields s rest (s.processedCount + 1) s.errorCount h))

theorem processOneLink_invNodup (net : NetCheck) (timeoutSec max_depth : Nat)
    (strict_mode : Bool) (current_depth : Nat) (s : BfsState) (link : String × String)
    (h : InvNodup s) :
    InvNodup (processOneLink net timeoutSec max_depth strict_mode current_depth s link) := by
  obtain ⟨h1, h2, h3, h4⟩ := h
  simp only [processOneLink]
  split
  · exact ⟨h1, h2, h3, h4⟩
  · rename_i hnot
    split
    · split
      · refine ⟨?_, ?_, ?_, ?_⟩
        · simp only [List.map_append, List.map_cons, List.map_nil]
          refine List.nodup_append.mpr ⟨h1, by simp, ?_⟩
          intro x hx hx'
          simp only [List.mem_singleton] at hx'
          subst hx'
          exact hnot (h2 _ hx)
        · intro u hu
          simp only [List.map_append, List.map_cons, List.map_nil, List.mem_append,
            List.mem_singleton] at hu
          rcases hu with hu | rfl
          · exact List.mem_cons_of_mem _ (h2 u hu)
          · exact List.mem_cons_self _ _
        · simp only [List.map_append, List.map_cons, List.map_nil]
          refine List.nodup_append.mpr ⟨h3, by simp, ?_⟩
          intro x hx hx'
          simp only [List.mem_singleton] at hx'
          subst hx'
          exact hnot (h4 _ hx)
        · intro u hu
          simp only [List.map_append, List.map_cons, List.map_nil, List.mem_append,
            List.mem_singleton] at hu
          rcases hu with hu | rfl
          · exact List.mem_cons_of_mem _ (h4 u hu)
          · exact List.mem_cons_self _ _
      · refine ⟨h1, ?_, ?_, ?_⟩
        · intro u hu
          exact List.mem_cons_of_mem _ (h2 u hu)
        · simp only [List.map_append, List.map_cons, List.map_nil]
          refine List.nodup_append.mpr ⟨h3, by simp, ?_⟩
          intro x hx hx'
          simp only [List.mem_singleton] at hx'
          subst hx'
          exact hnot (h4 _ hx)
        · intro u hu
          simp only [List.map_append, List.map_cons, List.map_nil, List.mem_append,
            List.mem_singleton] at hu
          rcases hu with hu | rfl
          · exact List.mem_cons_of_mem _ (h4 u hu)
          · exact List.mem_cons_self _ _
    · split
      · exact ⟨h1, h2, h3, h4⟩
      · exact ⟨h1, h2, h3, h4⟩

theorem processOneLink_invDepth (net : NetCheck) (timeoutSec max_depth : Nat)
    (strict_mode : Bool) (current_depth : Nat)
    (hd : current_depth ≤ max_depth) (s : BfsState) (link : String × String)
    (h : InvDepth max_depth s) :
    InvDepth max_depth (processOneLink net timeoutSec max_depth strict_mode current_depth s link) := by
  obtain ⟨h1, h2⟩ := h
  simp only [processOneLink]
  split
  · exact ⟨h1, h2⟩
  · split
    · split
      · rename_i hle
        refine ⟨?_, ?_⟩
        · intro e he
          simp only [List.mem_append, List.mem_singleton] at he
          rcases he with he | rfl
          · exact h1 e he
          · exact hle
        · intro r hr
          simp only [List.mem_append, List.mem_singleton] at hr
          rcases hr with hr | rfl
          · exact h2 r hr
          · show current_depth + 1 ≤ max_depth + 1
            omega
      · refine ⟨h1, ?_⟩
        intro r hr
        simp only [List.mem_append, List.mem_singleton] at hr
        rcases hr with hr | rfl
        · exact h2 r hr
        · show current_depth + 1 ≤ max_depth + 1
          omega
    · split
      · exact ⟨h1, h2⟩
      · exact ⟨h1, h2⟩

theorem processOneLink_invStrict (net : NetCheck) (timeoutSec max_depth : Nat)
    (strict_mode : Bool) (current_depth : Nat) (s : BfsState) (link : String × String)
    (h : InvStrict strict_mode s) :
    InvStrict strict_mode (processOneLink net timeoutSec max_depth strict_mode current_depth s link) := by
  obtain ⟨h1, h2⟩ := h
  simp only [processOneLink]
  split
  · exact ⟨h1, h2⟩
  · split
    · split
      · exact ⟨h1, h2⟩
      · exact ⟨h1, h2⟩
    · split
      · rename_i hstrict
        refine ⟨?_, ?_⟩
        · rw [hstrict] at h1 ⊢
          simpa using h1
        · simp only [List.length_append, List.length_cons, List.length_nil]
          omega
      · rename_i hstrict
        have hfalse : strict_mode = false := by
          cases strict_mode
          · rfl
          · exact absurd rfl hstrict
        subst hfalse
        simp only [Bool.false_eq_true, if_false] at h1
        refine ⟨?_, ?_⟩
        · simp [h1]
        · simp [h2]

theorem bfs_invNodup (fetch : FetchOracle) (net : NetCheck) (main_url : String)
    (context : URLExtractionContext) (globalCache : LruCache) (fuel : Nat) :
    InvNodup (extractUrlsRecursivelyBfs fetch net main_url context globalCache fuel) := by
  apply bfsLoop_pres fetch net context.max_depth context.max_urls_per_level
    context.strict_mode context.timeoutSec InvNodup
    (fun s q n m h => h)
    (fun d _ s link h => processOneLink_invNodup net context.timeoutSec context.max_depth
      context.strict_mode d s link h)
  refine ⟨?_, ?_, ?_, ?_⟩ <;> simp [initBfsState, InvNodup]

theorem bfs_invDepth (fetch : FetchOracle) (net : NetCheck) (main_url : String)
    (context : URLExtractionContext) (globalCache : LruCache) (fuel : Nat) :
    InvDepth context.max_depth
      (extractUrlsRecursivelyBfs fetch net main_url context globalCache fuel) := by
  apply bfsLoop_pres fetch net context.max_depth context.max_urls_per_level
    context.strict_mode context.timeoutSec (InvDepth context.max_depth)
    (fun s q n m h => h)
    (fun d hd s link h => processOneLink_invDepth net context.timeoutSec context.max_depth
      context.strict_mode d hd s link h)
  refine ⟨?_, ?_⟩ <;> simp [initBfsState, InvDepth]

theorem bfs_invStrict (fetch : FetchOracle) (net : NetCheck) (main_url : String)
    (context : URLExtractionContext) (globalCache : LruCache) (fuel : Nat) :
    InvStrict context.strict_mode
      (extractUrlsRecursivelyBfs fetch net main_url context globalCache fuel) := by
  apply bfsLoop_pres fetch net context.max_depth context.max_urls_per_level
    context.strict_mode context.timeoutSec (InvStrict context.strict_mode)
    (fun s q n m h => h)
    (fun d _ s link h => processOneLink_invStrict net context.timeoutSec context.max_depth
      context.strict_mode d s link h)
  refine ⟨?_, ?_⟩ <;> simp [initBfsState, InvStrict]

theorem bfs_rootFail (fetch : FetchOracle) (net : NetCheck) (main_url : String)
    (context : URLExtractionContext) (globalCache : LruCache) (fuel : Nat)
    (h : fetch main_url = none) :
    (extractUrlsRecursivelyBfs fetch net main_url context globalCache fuel).records = [] ∧
    (extractUrlsRecursivelyBfs fetch net main_url context globalCache fuel).skipped = [] ∧
    (extractUrlsRecursivelyBfs fetch net main_url context globalCache fuel).unverified = [] ∧
    (extractUrlsRecursivelyBfs fetch net main_url context globalCache fuel).metadata = {} := by
  cases fuel with
  | zero => exact ⟨rfl, rfl, rfl, rfl⟩
  | succ n =>
    unfold extractUrlsRecursivelyBfs
    simp only [bfsLoop, initBfsState]
    rw [if_neg (by omega : ¬ context.max_depth < 0)]
    simp only [h]
    rw [bfsLoop_queue_nil _ _ _ _ _ _ n _ rfl]
    exact ⟨rfl, rfl, rfl, rfl⟩

/-! ## Claim theorems. -/

/-- C1 (amended): in `_extract_urls_recursively_bfs`, a link discovered at
`depth == max_depth` is recorded and the queue receives no further children
from it (every entry ever enqueued has depth at most `max_depth`); however
its page is still fetched once more, so verified children can appear in
`records` at depth `max_depth + 1`; no record exceeds `max_depth + 1`. -/
theorem bfsMaxDepthBoundary : ∀ (fetch : FetchOracle) (net : NetCheck) (main_url : String)
    (context : URLExtractionContext) (globalCache : LruCache) (fuel : Nat),
    (∀ e ∈ (extractUrlsRecursivelyBfs fetch net main_url context globalCache fuel).enqueuedLog,
      e.2 ≤ context.max_depth) ∧
    (∀ r ∈ (extractUrlsRecursivelyBfs fetch net main_url context globalCache fuel).records,
      r.2.2 ≤ context.max_depth + 1) :=
  fun fetch net main_url context globalCache fuel =>
    bfs_invDepth fetch net main_url context globalCache fuel

/-- C1 counterexample: with `max_depth = 1`, the crawl of the three-page
chain site records `("https://d.ex/a/b", "B", 2)` — a verified record
whose depth exceeds `max_depth` — because the page discovered exactly at
the maximum depth is itself expanded.  This refutes the claim that the
crawl produces no `VerifiedRecord` from such a page. -/
theorem bfsMaxDepthBoundary_counterexample :
    ("https://d.ex/a/b", "B", 2) ∈
      (extractUrlsRecursivelyBfs fetchChain netAll200 "https://d.ex" ctxDepth1 [] 10).records ∧
    ctxDepth1.max_depth = 1 ∧ 1 < 2 := by
  refine ⟨?_, rfl, ?_⟩ <;> decide

/-- C1 witness: the amended bound instantiated on the chain site. -/
theorem bfsMaxDepthBoundary_witness :
    (("https://d.ex/a", 1) : String × Nat).2 ≤ ctxDepth1.max_depth ∧
    (("https://d.ex/a/b", "B", 2) : String × String × Nat).2.2 ≤ ctxDepth1.max_depth + 1 :=
  ⟨(bfsMaxDepthBoundary fetchChain netAll200 "https://d.ex" ctxDepth1 [] 10).1
      ("https://d.ex/a", 1) (by decide),
   (bfsMaxDepthBoundary fetchChain netAll200 "https://d.ex" ctxDepth1 [] 10).2
      ("https://d.ex/a/b", "B", 2) (by decide)⟩

/-- C3: for every crawl, the URLs of the verified records are pairwise
distinct, and no URL is ever enqueued twice (the `enqueuedLog` history of
all queue insertions, including the root, has pairwise distinct URLs);
the `visited` set makes the first-seen occurrence win. -/
theorem bfsNoDuplicateUrls : ∀ (fetch : FetchOracle) (net : NetCheck) (main_url : String)
    (context : URLExtractionContext) (globalCache : LruCache) (fuel : Nat),
    ((extractUrlsRecursivelyBfs fetch net main_url context globalCache fuel).records.map
      (fun r => r.1)).Nodup ∧
    ((extractUrlsRecursivelyBfs fetch net main_url context globalCache fuel).enqueuedLog.map
      Prod.fst).Nodup :=
  fun fetch net main_url context globalCache fuel =>
    let h := bfs_invNodup fetch net main_url context globalCache fuel
    ⟨h.2.2.1, h.1⟩

/-- C2 (amended): if the root URL is unreachable (the page extraction for
it fails), `extract_urls_from_documentation` returns the ordinary success
shape with empty `topics` and `totalPages = 0` and raises no exception;
however no `error` field is set: the root fetch failure is swallowed by
the per-page `except` inside the BFS loop, so the result is
indistinguishable from an empty successful crawl. -/
theorem rootUnreachableStructuredResult :
    ∀ (fetch : FetchOracle) (net : NetCheck) (url : String)
      (context : URLExtractionContext) (globalCache : LruCache) (fuel : Nat),
    fetch url = none →
    outHasErrorField (extractUrlsFromDocumentation fetch net url context globalCache fuel)
        = false ∧
    outTopics (extractUrlsFromDocumentation fetch net url context globalCache fuel) = [] ∧
    outTotalPages (extractUrlsFromDocumentation fetch net url context globalCache fuel) = 0 := by
  intro fetch net url context globalCache fuel h
  obtain ⟨hr, hs, hu, hm⟩ := bfs_rootFail fetch net url context globalCache fuel h
  unfold extractUrlsFromDocumentation
  dsimp only
  rw [hr, hs, hu, hm]
  simp [organizeUrlsToTopicsWithDepth, organizeLoop, insertionSort,
    outHasErrorField, outTopics, outTotalPages]

/-- C2 counterexample: on a total crawl failure (every fetch fails, in
particular the root), the returned structure has no `error` field at all
— the claim that a non-empty `error` string is present is false. -/
theorem rootUnreachable_counterexample :
    outHasErrorField
      (extractUrlsFromDocumentation fetchFailAll netAll200 "https://d.ex" ctxDepth1 [] 10)
        = false ∧
    outTopics (extractUrlsFromDocumentation fetchFailAll netAll200 "https://d.ex" ctxDepth1 [] 10)
        = [] ∧
    outTotalPages
      (extractUrlsFromDocumentation fetchFailAll netAll200 "https://d.ex" ctxDepth1 [] 10)
        = 0 := by
  refine ⟨?_, ?_, ?_⟩ <;> decide

/-- C2 witness: the amended statement instantiated on a concrete crawl
whose root fetch fails. -/
theorem rootUnreachableStructuredResult_witness :
    outHasErrorField
      (extractUrlsFromDocumentation fetchFailAll netAll200 "https://d.ex" ctxDepth1 [] 5)
        = false ∧
    outTopics (extractUrlsFromDocumentation fetchFailAll netAll200 "https://d.ex" ctxDepth1 [] 5)
        = [] ∧
    outTotalPages
      (extractUrlsFromDocumentation fetchFailAll netAll200 "https://d.ex" ctxDepth1 [] 5)
        = 0 :=
  rootUnreachableStructuredResult fetchFailAll netAll200 "https://d.ex" ctxDepth1 [] 5 rfl

/-- C7: with `strict_mode = True` the returned `unverifiedLinks` is empty;
with `strict_mode = False` it equals `skippedLinks`, which contains one
entry per failed candidate (`metadata.failed` counts them). -/
theorem strictModeSuppression :
    ∀ (fetch : FetchOracle) (net : NetCheck) (url : String)
      (context : URLExtractionContext) (globalCache : LruCache) (fuel : Nat),
    (context.strict_mode = true →
      outUnverifiedLinks (extractUrlsFromDocumentation fetch net url context globalCache fuel)
        = []) ∧
    (context.strict_mode = false →
      outUnverifiedLinks (extractUrlsFromDocumentation fetch net url context globalCache fuel)
        = outSkippedLinks (extractUrlsFromDocumentation fetch net url context globalCache fuel)) ∧
    (outMetadata (extractUrlsFromDocumentation fetch net url context globalCache fuel)).failed
      = (outSkippedLinks
          (extractUrlsFromDocumentation fetch net url context globalCache fuel)).length := by
  intro fetch net url context globalCache fuel
  have hinv := bfs_invStrict fetch net url context globalCache fuel
  unfold extractUrlsFromDocumentation
  dsimp only
  split
  · rename_i tp ho
    obtain ⟨hsk, hunv, hmd, _⟩ := organize_fields _ _ _ _ _ _ _ ho
    refine ⟨?_, ?_, ?_⟩
    · intro hstrict
      simp only [outUnverifiedLinks, hunv, hstrict, if_true]
    · intro hstrict
      simp only [outUnverifiedLinks, outSkippedLinks, hunv, hsk, hstrict,
        Bool.false_eq_true, if_false]
      have h1 := hinv.1
      rw [hstrict] at h1
      simpa using h1
    · simp only [outMetadata, outSkippedLinks, hmd, hsk]
      exact hinv.2
  · exact ⟨fun _ => rfl, fun _ => rfl, rfl⟩

/-- C7 witness: strict mode on the chain site yields no unverified links. -/
theorem strictModeSuppression_witness :
    outUnverifiedLinks
      (extractUrlsFromDocumentation fetchChain netAll200 "https://d.ex" ctxDepth1 [] 10) = [] :=
  (strictModeSuppression fetchChain netAll200 "https://d.ex" ctxDepth1 [] 10).1 rfl

/-- C4: the global validation cache is a bounded LRU: after inserting
`MAX_GLOBAL_CACHE_SIZE + 1` records with distinct URLs into an empty
cache, exactly `MAX_GLOBAL_CACHE_SIZE` entries remain and the evicted
entry is the least-recently-used (first-inserted) one; a cache read moves
the entry it hits to the most-recent end, and a write to an existing key
refreshes its recency as well. -/
theorem globalCacheLruBound :
    (∀ entries : List (String × ValidationRecord),
      (entries.map Prod.fst).Nodup →
      entries.length = MAX_GLOBAL_CACHE_SIZE + 1 →
      ((entries.foldl (fun c kv => setCachedValidation kv.1 kv.2 c) []).map Prod.fst
          = (entries.map Prod.fst).drop 1 ∧
        (entries.foldl (fun c kv => setCachedValidation kv.1 kv.2 c) []).length
          = MAX_GLOBAL_CACHE_SIZE)) ∧
    (∀ (k : String) (v : ValidationRecord) (rest : LruCache),
      k ∉ rest.map Prod.fst →
      (getCachedValidation k ((k, v) :: rest)).2 = rest ++ [(k, v)]) ∧
    (∀ (k : String) (v vNew : ValidationRecord) (rest : LruCache),
      k ∉ rest.map Prod.fst → rest.length < MAX_GLOBAL_CACHE_SIZE →
      setCachedValidation k vNew ((k, v) :: rest) = rest ++ [(k, vNew)]) := by
  refine ⟨?_, ?_, ?_⟩
  · intro entries hnd hlen
    have hkeys := lru_fold_keys entries hnd
    rw [hlen] at hkeys
    have hdrop : MAX_GLOBAL_CACHE_SIZE + 1 - MAX_GLOBAL_CACHE_SIZE = 1 := by omega
    rw [hdrop] at hkeys
    refine ⟨hkeys, ?_⟩
    have hl := congrArg List.length hkeys
    simp only [List.length_map, List.length_drop] at hl
    rw [hl, hlen]
    omega
  · intro k v rest hk
    unfold getCachedValidation
    have hl : ((k, v) :: rest).lookup k = some v := by simp [List.lookup]
    rw [hl]
    have hfilter : ((k, v) :: rest).filter (fun p => p.1 != k) = rest := by
      simp only [List.filter_cons]
      rw [if_neg (by simp)]
      exact filter_ne_of_fresh_key rest k hk
    rw [hfilter]
  · intro k v vNew rest hk hlen
    unfold setCachedValidation
    have hfilter : ((k, v) :: rest).filter (fun p => p.1 != k) = rest := by
      simp only [List.filter_cons]
      rw [if_neg (by simp)]
      exact filter_ne_of_fresh_key rest k hk
    rw [hfilter]
    rw [if_neg (by simp only [List.length_append, List.length_cons, List.length_nil]; omega)]

theorem lruKey_inj : Function.Injective lruKey := by
  intro a b h
  have h2 : List.replicate a 'a' = List.replicate b 'a' := congrArg String.data h
  have h3 := congrArg List.length h2
  simpa [List.length_replicate] using h3

theorem lruEntries_keys_nodup : (lruEntries.map Prod.fst).Nodup := by
  have hmap : lruEntries.map Prod.fst
      = (List.range (MAX_GLOBAL_CACHE_SIZE + 1)).map lruKey := by
    simp [lruEntries, List.map_map, Function.comp]
  rw [hmap]
  exact (List.nodup_range _).map lruKey_inj

theorem lruEntries_length : lruEntries.length = MAX_GLOBAL_CACHE_SIZE + 1 := by
  simp [lruEntries]

/-- C4 witness: the bound instantiated on 1001 concrete distinct keys. -/
theorem globalCacheLruBound_witness :
    ((lruEntries.foldl (fun c kv => setCachedValidation kv.1 kv.2 c) []).map Prod.fst
        = (lruEntries.map Prod.fst).drop 1) ∧
    (lruEntries.foldl (fun c kv => setCachedValidation kv.1 kv.2 c) []).length
        = MAX_GLOBAL_CACHE_SIZE :=
  globalCacheLruBound.1 lruEntries lruEntries_keys_nodup lruEntries_length

/-- C5: `_check_url_exists` classifies exactly as specified: HEAD first,
GET retry on 403/405, verified iff the final status is below 400, timeout
and transport failures reported without a status code, and any other
outcome reported as `validation_failed` with the final status code. -/
theorem checkUrlExists_classification : ∀ headResp getResp : NetResp,
    checkUrlExists headResp getResp = checkUrlExistsSpec headResp getResp ∧
    ((checkUrlExists headResp getResp).1 = true ↔
      ∃ s, (checkUrlExists headResp getResp).2.1 = some s ∧ s < 400) := by
  intro h g
  constructor
  · cases h with
    | timeout => rfl
    | requestError => rfl
    | status s =>
      simp only [checkUrlExists, checkUrlExistsSpec]
      by_cases h1 : s < 400
      · have hno : ¬(s = 403 ∨ s = 405) := by omega
        have hno2 : ¬(s = 405 ∨ s = 403) := by omega
        simp [h1, hno, hno2]
      · by_cases h2 : s = 403 ∨ s = 405
        · have h2a : s = 405 ∨ s = 403 := Or.symm h2
          simp only [if_neg h1, if_pos h2, if_pos h2a]
        · have h2a : ¬(s = 405 ∨ s = 403) := fun hh => h2 (Or.symm hh)
          simp [h1, h2, h2a]
  · cases h with
    | timeout => simp [checkUrlExists]
    | requestError => simp [checkUrlExists]
    | status s =>
      simp only [checkUrlExists]
      by_cases h1 : s < 400
      · simp only [if_pos h1]
        simp [h1]
      · by_cases h2 : s = 405 ∨ s = 403
        · simp only [if_neg h1, if_pos h2]
          cases g with
          | timeout => simp
          | requestError => simp
          | status t =>
            by_cases h3 : t < 400
            · simp [h3]
            · simp [h3]
        · simp only [if_neg h1, if_neg h2]
          simp [h1]

/-- C6: the link filter rejects a foreign registrable domain, accepts a
subdomain of the origin's registrable domain, rejects a same-path
fragment-only link, and returns `False` whenever URL parsing fails
(fail closed). -/
theorem isRelevantLink_examples_and_failClosed :
    isRelevantLink "https://evil.com/x" "https://example.com" = false ∧
    isRelevantLink "https://docs.example.com/x" "https://example.com" = true ∧
    isRelevantLink "https://example.com/a#frag" "https://example.com/a" = false ∧
    ∀ link_url main_url : String,
      (urlparse link_url = none ∨ urlparse main_url = none) →
      isRelevantLink link_url main_url = false := by
  refine ⟨by decide, by decide, by decide, ?_⟩
  intro l m h
  unfold isRelevantLink
  rcases h with h | h
  · rw [h]
  · cases hl : urlparse l with
    | none => rfl
    | some pl => rw [h]

/-- C6 witness: a URL with mismatched brackets makes parsing fail, and the
filter rejects it. -/
theorem isRelevantLink_failClosed_witness :
    isRelevantLink "http://[x" "https://example.com" = false :=
  isRelevantLink_examples_and_failClosed.2.2.2 "http://[x" "https://example.com"
    (Or.inl (by decide))

/-- C8: the Topic Organizer is deterministic — being a pure function,
calling it twice on the same input yields identical output — and its
topics are sorted by `(depth ascending, url ascending)` with duplicate
URLs removed, the first occurrence winning. -/
theorem organizeDeterministicSortedNodup :
    ∀ (urls_with_depth : List (String × String × Nat)) (main_url : String)
      (strict_mode : Bool) (skipped unverified : List SkippedLink)
      (metadata : URLExtractionMetadata) (payload : OrganizePayload),
    organizeUrlsToTopicsWithDepth urls_with_depth main_url strict_mode skipped unverified
        metadata = some payload →
    (organizeUrlsToTopicsWithDepth urls_with_depth main_url strict_mode skipped unverified
        metadata
      = organizeUrlsToTopicsWithDepth urls_with_depth main_url strict_mode skipped unverified
        metadata) ∧
    payload.topics.Pairwise (fun a b => topicSortLe a b = true) ∧
    (payload.topics.map Topic.url).Nodup := by
  intro rs main strict sk unv md payload h
  obtain ⟨-, -, -, ts, hts, htopics⟩ := organize_fields rs main strict sk unv md payload h
  refine ⟨rfl, ?_, ?_⟩
  · rw [htopics]
    exact pairwise_insertionSort topicSortLe topicSortLe_trans topicSortLe_total ts
  · rw [htopics]
    have hperm : (insertionSort topicSortLe ts).Perm ts := insertionSort_perm topicSortLe ts
    have hnd := (organizeLoop_urls main rs [] ts hts).1
    exact ((hperm.map Topic.url).symm).nodup hnd

/-- C8 witness: a concrete record list with a duplicate URL and unsorted
depths is organized into a sorted, duplicate-free topic list. -/
theorem organizeDeterministicSortedNodup_witness :
    organizePayloadW.topics.Pairwise (fun a b => topicSortLe a b = true) ∧
    (organizePayloadW.topics.map Topic.url).Nodup :=
  (organizeDeterministicSortedNodup recsW "https://d.ex" true [] [] {} organizePayloadW
    (by decide)).2

/-- C9: the title resolver returns the anchor text verbatim (the anchor
text handed in by `get_text(strip=True)` is already stripped, recorded by
the hypothesis `pyStrip anchor_text = anchor_text`) without consulting
the page-fetch oracle, whenever the anchor text is non-empty and under
100 characters; and a failure of the candidate-page fetch never
propagates: the resolver falls back to the stripped anchor text if
non-empty, else to the title derived from the last non-empty URL path
segment. -/
theorem titleResolverFastPathAndFallback :
    (∀ (findById : String → Option String) (headings : List (String × String))
       (fetchPage : String → Option PageParse) (url anchor_text main_url : String),
      anchor_text ≠ "" → anchor_text.length < 100 → pyStrip anchor_text = anchor_text →
      extractTitleFromUrl findById headings fetchPage url anchor_text main_url
        = some anchor_text) ∧
    (∀ (findById : String → Option String) (headings : List (String × String))
       (fetchPage : String → Option PageParse) (url anchor_text main_url : String)
       (parsed_url parsed_main : ParsedUrl),
      urlparse url = some parsed_url → urlparse main_url = some parsed_main →
      parsed_url.path ≠ parsed_main.path → fetchPage url = none →
      (anchor_text = "" ∨ 100 ≤ anchor_text.length) →
      extractTitleFromUrl findById headings fetchPage url anchor_text main_url
        = some (if pyStrip anchor_text ≠ "" then pyStrip anchor_text
                else urlDerivedTitle parsed_url)) := by
  constructor
  · intro fid hs fp url a main ha hlen hstrip
    unfold extractTitleFromUrl
    rw [if_pos ⟨ha, hlen⟩, hstrip]
  · intro fid hs fp url a main pu pm hpu hpm hpath hfetch hno
    have hcond : ¬(a ≠ "" ∧ a.length < 100) := by
      rcases hno with rfl | hge
      · intro hc; exact hc.1 rfl
      · intro hc; omega
    unfold extractTitleFromUrl
    rw [if_neg hcond, hpu, hpm]
    dsimp only
    rw [if_neg (fun hc => hpath hc.1)]
    rw [hfetch]
    simp only [Option.none_bind]
    split_ifs <;> rfl

/-- C9 witness: the fast path on a concrete anchor, and the fallback on a
concrete fetch failure with empty anchor text. -/
theorem titleResolverFastPathAndFallback_witness :
    extractTitleFromUrl findByIdNone [] fetchPageNone "http://e.com/a-b" "Intro" "http://e.com"
        = some "Intro" ∧
    extractTitleFromUrl findByIdNone [] fetchPageNone "http://e.com/a-b" "" "http://e.com"
        = some "A B" := by
  constructor
  · exact titleResolverFastPathAndFallback.1 findByIdNone [] fetchPageNone
      "http://e.com/a-b" "Intro" "http://e.com" (by decide) (by decide) (by decide)
  · have h := titleResolverFastPathAndFallback.2 findByIdNone [] fetchPageNone
      "http://e.com/a-b" "" "http://e.com" ⟨"http", "e.com", "/a-b", ""⟩
      ⟨"http", "e.com", "", ""⟩ (by decide) (by decide) (by decide) rfl (Or.inl rfl)
    rw [h]
    decide

/-- C10: on a cache miss (neither the per-request cache nor the global
cache holds the URL), `_validate_url_status` issues the network existence
check with timeout `min(timeout, 10)` — so the validation request timeout
never exceeds 10 seconds regardless of the context timeout — and stores
the resulting record in both caches. -/
theorem validateUrlStatusCapsTimeout :
    ∀ (net : NetCheck) (url : String) (timeoutSec : Nat)
      (per_request_cache : PerCache) (globalCache : LruCache),
    per_request_cache.lookup url = none →
    globalCache.lookup url = none →
    validateUrlStatus net url timeoutSec per_request_cache globalCache
      = (mkValidationRecord (net url (min timeoutSec 10)),
         per_request_cache ++ [(url, mkValidationRecord (net url (min timeoutSec 10)))],
         setCachedValidation url (mkValidationRecord (net url (min timeoutSec 10)))
           globalCache) ∧
    min timeoutSec 10 ≤ 10 := by
  intro net url t per glob hper hglob
  refine ⟨?_, by omega⟩
  unfold validateUrlStatus
  rw [hper, getCachedValidation_miss url glob hglob]

/-- C10 witness: with the context timeout at 60 seconds, the echo oracle
records that the network check received timeout 10. -/
theorem validateUrlStatusCapsTimeout_witness :
    validateUrlStatus netEcho "https://d.ex" 60 [] []
      = (⟨"verified", some 10, none⟩,
         [("https://d.ex", ⟨"verified", some 10, none⟩)],
         [("https://d.ex", ⟨"verified", some 10, none⟩)]) := by
  have h := (validateUrlStatusCapsTimeout netEcho "https://d.ex" 60 [] [] rfl rfl).1
  rw [h]
  decide
